import Mathlib

/-!
# simple-scheduler: a verification development

A shallow embedding of `scheduler.go` (package `scheduler`).

* `time.Time` is an integer count of clock units measured from the zero instant
  `time.Time{}`; `IsZero` and `Before` are the two methods the code uses.
* `cronkit` is an external package: its `Parse` and `Expression.Next` are taken as a
  parameter (`Cronkit`).
* A task `func(context.Context) error` is opaque: it is an identifier, and the value it
  returns is chosen by the environment when the task finishes. A nil task is `none`.
* `map[string]*job` is a list of jobs keyed by `job.name`, in insertion order. A `*job`
  held by a goroutine is the job's name (jobs are never removed or renamed). Go ranges over
  a map in an unspecified order; the scan handles each job on its own, so the order only
  shows in the order of the list of launched goroutines.
* Every region of code executed under `s.mu`, and every single channel or WaitGroup
  operation, is one atomic step of the interleaving semantics (`step`); so are the return of
  a task and the write of `nextRun` in `run`, which happens outside the lock.
-/

namespace SimpleScheduler

/-! ## Data model -/

/-- Instants of `time.Time`, counted from the zero instant. -/
abbrev Time := Int

/-- Method `time.Time.IsZero`. -/
def IsZero (t : Time) : Bool := t == 0

/-- Method `time.Time.Before`: `Before t u` is `t.Before(u)`. -/
def Before (t u : Time) : Bool := decide (t < u)

/-- Identifier of a non-nil task function. -/
abbrev Task := Nat

/-- The two operations of package `cronkit` the scheduler calls, over parsed expressions `E`.
`Parse` returns either an error message or an expression. -/
structure Cronkit (E : Type) where
  Parse : String → Except String E
  Next : E → Time → Time

/-- Struct `job`. -/
structure Job (E : Type) where
  name : String
  parsedCronExpr : Option E
  task : Task
  nextRun : Time
  running : Bool
deriving DecidableEq, Repr

/-- Struct `Scheduler` without its mutex: the registry, whether `stopCh` is closed, and the
counter of the WaitGroup `wg`. -/
structure Scheduler (E : Type) where
  jobs : List (Job E)
  stopCh : Bool
  wg : Nat
deriving DecidableEq, Repr

/-- Function `New`. -/
def New (E : Type) : Scheduler E := { jobs := [], stopCh := false, wg := 0 }

/-- The errors `Register` returns, one per `fmt.Errorf` call. -/
inductive RegisterError where
  | jobExists (name : String)
  | taskNil
  | invalidCron (err : String)
  | missingSchedule
deriving DecidableEq, Repr

/-- The message of each error. -/
def RegisterError.Error : RegisterError → String
  | .jobExists name => "job already exists: " ++ name
  | .taskNil => "task cannot be nil"
  | .invalidCron err => "invalid cron expression: " ++ err
  | .missingSchedule => "either cronExpr or runAt must be provided"

/-- Map lookup `s.jobs[name]`. -/
def lookup {E : Type} (name : String) (jobs : List (Job E)) : Option (Job E) :=
  jobs.find? (fun j => j.name == name)

/-- Method `Scheduler.Register`; `now` is the value of `time.Now()`. Returns the scheduler after
the call and the returned error (`none` for `nil`). -/
def Register {E : Type} (ck : Cronkit E) (s : Scheduler E) (now : Time) (name : String)
    (cronExpr : Option String) (runAt : Option Time) (task : Option Task) :
    Scheduler E × Option RegisterError :=
  match lookup name s.jobs with
  | some _ => (s, some (.jobExists name))
  | none =>
    match task with
    | none => (s, some .taskNil)
    | some task =>
      let job : Job E :=
        { name := name, parsedCronExpr := none, task := task, nextRun := 0, running := false }
      match cronExpr with
      | some c =>
        match ck.Parse c with
        | .error err => (s, some (.invalidCron err))
        | .ok expr =>
          let job := { job with parsedCronExpr := some expr }
          let job := { job with nextRun := ck.Next expr now }
          ({ s with jobs := s.jobs ++ [job] }, none)
      | none =>
        match runAt with
        | some t =>
          let job := { job with nextRun := t }
          ({ s with jobs := s.jobs ++ [job] }, none)
        | none => (s, some .missingSchedule)

/-- A toy calculator for concrete runs: an expression is `@` followed by as many characters
as the period has clock units; `Next` adds the period. -/
def periodic : Cronkit Nat where
  Parse := fun c =>
    match c.data with
    | '@' :: rest => .ok rest.length
    | _ => .error "bad expression"
  Next := fun e t => t + e

/-! ## The poll loop -/

/-- Body of the `for _, job := range s.jobs` loop of `Start` for one job: the job after the
iteration, and whether `go s.run(job)` was issued. -/
def scanJob {E : Type} (now : Time) (j : Job E) : Job E × Bool :=
  if j.running then (j, false)
  else if !IsZero j.nextRun && !Before now j.nextRun then ({ j with running := true }, true)
  else (j, false)

/-- The locked loop over the registry in `Start`: the registry after the loop and the names of
the jobs for which `s.wg.Add(1); go s.run(job)` was executed, one entry per launch. -/
def scan {E : Type} (now : Time) : List (Job E) → List (Job E) × List String
  | [] => ([], [])
  | j :: js =>
    ((scanJob now j).1 :: (scan now js).1,
      if (scanJob now j).2 then j.name :: (scan now js).2 else (scan now js).2)

/-! ## The executor -/

/-- Lines 116-120 of `run`, on the job the goroutine points to; `now` is `time.Now()`. -/
def runNextRun {E : Type} (ck : Cronkit E) (now : Time) (j : Job E) : Job E :=
  match j.parsedCronExpr with
  | some expr => { j with nextRun := ck.Next expr now }
  | none => { j with nextRun := 0 }

/-- The deferred function of `run` that clears `running` under the lock. -/
def runClear {E : Type} (j : Job E) : Job E := { j with running := false }

/-- A write through the pointer to the job called `name`. -/
def modify {E : Type} (name : String) (f : Job E → Job E) (jobs : List (Job E)) :
    List (Job E) :=
  jobs.map (fun j => if j.name = name then f j else j)

/-! ## Stop -/

/-- Position of a goroutine executing `Stop`. -/
inductive StopPc where
  | atSelect
  | atClose
  | atWait
  | returned
deriving DecidableEq, Repr

/-- The `select` of `Stop`: return at once when `stopCh` is closed, else go on to `close`. -/
def stopSelect {E : Type} (s : Scheduler E) : StopPc :=
  if s.stopCh then .returned else .atClose

/-- The statement `close(s.stopCh)`; closing a closed channel panics (`none`). -/
def closeStopCh {E : Type} (s : Scheduler E) : Option (Scheduler E) :=
  if s.stopCh then none else some { s with stopCh := true }

/-- Method `Stop` up to its call of `s.wg.Wait()`, run without interference: the scheduler it
leaves and where the caller is (`returned`, or `atWait` blocked in `Wait`); `none` is a panic. -/
def Stop {E : Type} (s : Scheduler E) : Option (Scheduler E × StopPc) :=
  match stopSelect s with
  | .returned => some (s, .returned)
  | _ => (closeStopCh s).map (fun s' => (s', .atWait))

/-! ## Interleaving semantics -/

/-- Position of a goroutine executing `run`: executing the task, after the task (before the
write of `nextRun`), before the deferred clearing of `running`, before the deferred
`wg.Done()`. -/
inductive RunPc where
  | task
  | afterTask
  | deferClear
  | deferDone
deriving DecidableEq, Repr

/-- A goroutine started by `go s.run(job)`. -/
structure Run where
  name : String
  pc : RunPc
deriving DecidableEq, Repr

/-- Position of a goroutine started by `Start`: at the `select`, in the default branch with
`now` read and the lock not yet taken, or returned. `time.Sleep` is the unconstrained choice of
the next `now`. -/
inductive LoopPc where
  | atSelect
  | atLock (now : Time)
  | exited
deriving DecidableEq, Repr

/-- The scheduler together with its goroutines. `log` is the output of `log.Printf` (job name
and error); `started` records every launch of `run` in order and is read by no step. -/
structure World (E : Type) where
  s : Scheduler E
  runs : List Run
  loops : List LoopPc
  stops : List StopPc
  log : List (String × String)
  started : List String
  panicked : Bool
deriving DecidableEq, Repr

/-- The world right after `New`. -/
def init (E : Type) : World E :=
  { s := New E, runs := [], loops := [], stops := [], log := [], started := [],
    panicked := false }

/-- The atomic actions: a call of `Register`, a call of `Start`, the two steps of a loop
iteration, the four steps of `run`, a call of `Stop` and its three steps. Goroutines are
addressed by their position in the lists of the world. -/
inductive Label where
  | register (now : Time) (name : String) (cronExpr : Option String) (runAt : Option Time)
      (task : Option Task)
  | start
  | loopSelect (i : Nat) (now : Time)
  | loopScan (i : Nat)
  | taskReturn (k : Nat) (err : Option String)
  | setNextRun (k : Nat) (now : Time)
  | clearRunning (k : Nat)
  | wgDone (k : Nat)
  | stopCall
  | stopSelect (i : Nat)
  | stopClose (i : Nat)
  | stopWait (i : Nat)
deriving DecidableEq, Repr

/-- One atomic action; `none` when the action is not enabled. A panic ends the process. -/
def step {E : Type} (ck : Cronkit E) (l : Label) (w : World E) : Option (World E) :=
  if w.panicked then none else
  match l with
  | .register now name cronExpr runAt task =>
    some { w with s := (Register ck w.s now name cronExpr runAt task).1 }
  | .start => some { w with loops := w.loops ++ [.atSelect] }
  | .loopSelect i now =>
    match w.loops[i]? with
    | some .atSelect =>
      some { w with loops := w.loops.set i (if w.s.stopCh then .exited else .atLock now) }
    | _ => none
  | .loopScan i =>
    match w.loops[i]? with
    | some (.atLock now) =>
      some { w with
        s := { w.s with jobs := (scan now w.s.jobs).1,
                        wg := w.s.wg + (scan now w.s.jobs).2.length }
        runs := w.runs ++ (scan now w.s.jobs).2.map (fun n => ⟨n, .task⟩)
        started := w.started ++ (scan now w.s.jobs).2
        loops := w.loops.set i .atSelect }
    | _ => none
  | .taskReturn k err =>
    match w.runs[k]? with
    | some ⟨n, .task⟩ =>
      some { w with
        runs := w.runs.set k ⟨n, .afterTask⟩
        log := match err with
          | some e => w.log ++ [(n, e)]
          | none => w.log }
    | _ => none
  | .setNextRun k now =>
    match w.runs[k]? with
    | some ⟨n, .afterTask⟩ =>
      some { w with
        s := { w.s with jobs := modify n (runNextRun ck now) w.s.jobs }
        runs := w.runs.set k ⟨n, .deferClear⟩ }
    | _ => none
  | .clearRunning k =>
    match w.runs[k]? with
    | some ⟨n, .deferClear⟩ =>
      some { w with
        s := { w.s with jobs := modify n runClear w.s.jobs }
        runs := w.runs.set k ⟨n, .deferDone⟩ }
    | _ => none
  | .wgDone k =>
    match w.runs[k]? with
    | some ⟨_, .deferDone⟩ =>
      some { w with s := { w.s with wg := w.s.wg - 1 }, runs := w.runs.eraseIdx k }
    | _ => none
  | .stopCall => some { w with stops := w.stops ++ [.atSelect] }
  | .stopSelect i =>
    match w.stops[i]? with
    | some .atSelect => some { w with stops := w.stops.set i (stopSelect w.s) }
    | _ => none
  | .stopClose i =>
    match w.stops[i]? with
    | some .atClose =>
      match closeStopCh w.s with
      | some s' => some { w with s := s', stops := w.stops.set i .atWait }
      | none => some { w with panicked := true }
    | _ => none
  | .stopWait i =>
    match w.stops[i]? with
    | some .atWait => if w.s.wg = 0 then some { w with stops := w.stops.set i .returned } else none
    | _ => none

/-- A sequence of atomic actions, first to last. -/
def exec {E : Type} (ck : Cronkit E) : List Label → World E → Option (World E)
  | [], w => some w
  | l :: ls, w => (step ck l w).bind (exec ck ls)

/-- Zero or more atomic actions lead from the first world to the second. -/
inductive Steps {E : Type} (ck : Cronkit E) : World E → World E → Prop where
  | refl (w : World E) : Steps ck w w
  | tail {w w' w'' : World E} (l : Label) :
      Steps ck w w' → step ck l w' = some w'' → Steps ck w w''

/-- The worlds the scheduler can be in after `New`. -/
def Reachable {E : Type} (ck : Cronkit E) (w : World E) : Prop := Steps ck (init E) w

/-- Number of executions of the job `name` in flight: the `run` goroutines for it that have
not yet cleared its `running` flag. -/
def inFlight {E : Type} (name : String) (w : World E) : Nat :=
  w.runs.countP (fun x => x.name == name && x.pc != .deferDone)

/-- The `running` flag of the job `name` (false when there is no such job). -/
def isRunning {E : Type} (name : String) (jobs : List (Job E)) : Bool :=
  jobs.any (fun j => j.name == name && j.running)

/-- The condition of the specification for a job to be due at `now`. -/
def Due {E : Type} (now : Time) (j : Job E) : Prop :=
  j.running = false ∧ j.nextRun ≠ 0 ∧ j.nextRun ≤ now

instance {E : Type} (now : Time) (j : Job E) : Decidable (Due now j) := by
  unfold Due; infer_instance

/-- The names of the registry, in order. -/
def names {E : Type} (jobs : List (Job E)) : List String := jobs.map (fun j => j.name)

/-- What holds in every reachable world: names are unique, a job has one execution in flight
when its `running` flag is set and none otherwise, only registered jobs were ever launched, and
the WaitGroup counts the `run` goroutines. -/
structure Inv {E : Type} (w : World E) : Prop where
  nodup : (names w.s.jobs).Nodup
  flight : ∀ n, inFlight n w = if isRunning n w.s.jobs then 1 else 0
  started : ∀ n ∈ w.started, n ∈ names w.s.jobs
  wg : w.s.wg = w.runs.length

/-- The life of a one-shot job `n` registered with instant `r`: it is in the registry without a
rule; it was launched at most once; until its launch it is idle with `nextRun = r`; after its
launch it is running or has `nextRun` zero, and `nextRun` is zero once its execution is about
to clear `running`. -/
structure OneShot {E : Type} (n : String) (r : Time) (w : World E) : Prop where
  registered : n ∈ names w.s.jobs
  once : w.started.count n ≤ 1
  job : ∀ j ∈ w.s.jobs, j.name = n →
    j.parsedCronExpr = none ∧
    (w.started.count n = 0 → j.running = false ∧ j.nextRun = r) ∧
    (w.started.count n ≠ 0 → j.running = true ∨ j.nextRun = 0) ∧
    (∀ x ∈ w.runs, x.name = n → x.pc = .deferClear → j.nextRun = 0)

/-! ## Example worlds -/

/-- The one-shot job `a` launched once, its task still executing, with two poll loops. -/
def slowTask : World Nat :=
  { s := { jobs := [⟨"a", none, 7, 1, true⟩], stopCh := false, wg := 1 },
    runs := [⟨"a", .task⟩], loops := [.atSelect, .atSelect], stops := [], log := [],
    started := ["a"], panicked := false }

/-- The one-shot job `once` after its only execution and one more tick. -/
def onceDone : World Nat :=
  { s := { jobs := [⟨"once", none, 7, 0, false⟩], stopCh := false, wg := 0 },
    runs := [], loops := [.atSelect], stops := [], log := [], started := ["once"],
    panicked := false }

/-- A second caller of `Stop` has returned while the first waits and `a` executes. -/
def stopReturnedEarly : World Nat :=
  { s := { jobs := [⟨"a", none, 7, 1, true⟩], stopCh := true, wg := 1 },
    runs := [⟨"a", .task⟩], loops := [.atSelect], stops := [.atWait, .returned], log := [],
    started := ["a"], panicked := false }

/-- The only caller of `Stop` has returned and the poll loop then launched `a`. -/
def launchedAfterStop : World Nat :=
  { s := { jobs := [⟨"a", none, 7, 1, true⟩], stopCh := true, wg := 1 },
    runs := [⟨"a", .task⟩], loops := [.atSelect], stops := [.returned], log := [],
    started := ["a"], panicked := false }

/-! ## Registration -/

theorem lookup_eq_none_iff {E : Type} (name : String) (jobs : List (Job E)) :
    lookup name jobs = none ↔ ∀ j ∈ jobs, j.name ≠ name := by
  simp [lookup, List.find?_eq_none]

theorem lookup_append_single {E : Type} (name n : String) (jobs : List (Job E)) (j : Job E)
    (hj : j.name = n) (hfresh : lookup n jobs = none) :
    lookup name (jobs ++ [j]) = if name = n then some j else lookup name jobs := by
  by_cases h : name = n
  · subst h
    simp [lookup, List.find?_append, hj] at hfresh ⊢
    exact Or.inr hfresh
  · have hne : j.name ≠ name := by rw [hj]; exact fun e => h e.symm
    simp [lookup, List.find?_append, h, hne]

/-- C5: registering a name that is already present returns the duplicate-job-name error
whatever the schedule and task arguments are, and leaves the scheduler (hence the set of names
and every field of the original job) unchanged. -/
theorem register_duplicate {E : Type} (ck : Cronkit E) (s : Scheduler E) (now : Time)
    (name : String) (cronExpr : Option String) (runAt : Option Time) (task : Option Task)
    (j : Job E) (hj : lookup name s.jobs = some j) :
    Register ck s now name cronExpr runAt task = (s, some (.jobExists name)) ∧
    lookup name (Register ck s now name cronExpr runAt task).1.jobs = some j := by
  simp [Register, hj]

theorem register_duplicate_witness :
    lookup "dummy" (Register periodic (New Nat) 0 "dummy" none (some 1) (some 7)).1.jobs
      = some ⟨"dummy", none, 7, 1, false⟩ ∧
    (Register periodic (Register periodic (New Nat) 0 "dummy" none (some 1) (some 7)).1 5
        "dummy" (some "invalid") none none
      = ((Register periodic (New Nat) 0 "dummy" none (some 1) (some 7)).1,
          some (.jobExists "dummy")) ∧
     lookup "dummy" (Register periodic
        (Register periodic (New Nat) 0 "dummy" none (some 1) (some 7)).1 5
        "dummy" (some "invalid") none none).1.jobs = some ⟨"dummy", none, 7, 1, false⟩) :=
  ⟨by decide, register_duplicate periodic _ 5 "dummy" (some "invalid") none none
    ⟨"dummy", none, 7, 1, false⟩ (by decide)⟩

/-- C6: a request with a nil task, with no schedule, or with a cron expression that does not
parse returns an error and leaves the scheduler unchanged, so the name is not added; for a name
not yet present the error is the nil-task error when the task is nil, and for a non-nil task
the missing-schedule error when neither schedule is given and the invalid-cron-expression error
when the expression does not parse. -/
theorem register_invalid {E : Type} (ck : Cronkit E) (s : Scheduler E) (now : Time)
    (name : String) (cronExpr : Option String) (runAt : Option Time) (task : Option Task)
    (h : task = none ∨ (cronExpr = none ∧ runAt = none) ∨
      ∃ c err, cronExpr = some c ∧ ck.Parse c = .error err) :
    (∃ e, (Register ck s now name cronExpr runAt task).2 = some e) ∧
    (Register ck s now name cronExpr runAt task).1 = s ∧
    (lookup name s.jobs = none →
      (task = none → (Register ck s now name cronExpr runAt task).2 = some .taskNil) ∧
      (task ≠ none → cronExpr = none → runAt = none →
        (Register ck s now name cronExpr runAt task).2 = some .missingSchedule) ∧
      (task ≠ none → ∀ c err, cronExpr = some c → ck.Parse c = .error err →
        (Register ck s now name cronExpr runAt task).2 = some (.invalidCron err))) := by
  cases hl : lookup name s.jobs with
  | some j => simp [Register, hl]
  | none =>
    cases task with
    | none => simp [Register, hl]
    | some t =>
      rcases h with h | ⟨hc, hr⟩ | ⟨c, err, hc, hp⟩
      · cases h
      · subst hc; subst hr; simp [Register, hl]
      · subst hc
        simp [Register, hl, hp]
        intro c1 err1 hc1 hp1
        subst hc1
        rw [hp] at hp1
        cases hp1
        rfl

theorem register_invalid_witness :
    (∃ e, (Register periodic (New Nat) 0 "bad" (some "invalid") none (some 7)).2 = some e) ∧
    (Register periodic (New Nat) 0 "bad" (some "invalid") none (some 7)).1 = New Nat ∧
    (lookup "bad" (New Nat).jobs = none →
      ((some 7 : Option Task) = none →
        (Register periodic (New Nat) 0 "bad" (some "invalid") none (some 7)).2
          = some .taskNil) ∧
      ((some 7 : Option Task) ≠ none → (some "invalid" : Option String) = none →
        (none : Option Time) = none →
        (Register periodic (New Nat) 0 "bad" (some "invalid") none (some 7)).2
          = some .missingSchedule) ∧
      ((some 7 : Option Task) ≠ none → ∀ c err, some "invalid" = some c →
        periodic.Parse c = .error err →
        (Register periodic (New Nat) 0 "bad" (some "invalid") none (some 7)).2
          = some (.invalidCron err))) :=
  register_invalid periodic (New Nat) 0 "bad" (some "invalid") none (some 7)
    (Or.inr (Or.inr ⟨"invalid", "bad expression", rfl, rfl⟩))

/-- C7 as stated fails: with a fresh name, a parseable expression, an instant and a non-nil
task all supplied, `Register` returns no error and adds a job. -/
theorem register_both_counterexample :
    Register periodic (New Nat) 0 "both" (some "@+++") (some 100) (some 7)
      = ({ jobs := [⟨"both", some 3, 7, 3, false⟩], stopCh := false, wg := 0 }, none) := by
  decide

/-- C7 amended: `Register` succeeds only if at least one of `cronExpr` and `runAt` is
supplied; and a call that supplies both, with a fresh name, a parseable expression and a
non-nil task, succeeds and adds the recurring job of the expression, the instant being
ignored. -/
theorem register_both {E : Type} (ck : Cronkit E) (s : Scheduler E) (now : Time) (name : String)
    (c : String) (e : E) (t : Time) (task : Task)
    (hfresh : lookup name s.jobs = none) (hparse : ck.Parse c = .ok e) :
    Register ck s now name (some c) (some t) (some task)
      = ({ s with jobs := s.jobs ++ [⟨name, some e, task, ck.Next e now, false⟩] }, none) ∧
    ∀ cronExpr runAt task, (Register ck s now name cronExpr runAt task).2 = none →
      cronExpr ≠ none ∨ runAt ≠ none := by
  refine ⟨by simp [Register, hfresh, hparse], ?_⟩
  intro cronExpr runAt task h
  cases cronExpr with
  | some c => exact Or.inl (by simp)
  | none =>
    cases runAt with
    | some t => exact Or.inr (by simp)
    | none =>
      exfalso
      cases task <;> simp [Register, hfresh] at h

theorem register_both_witness :
    Register periodic (New Nat) 0 "both" (some "@+++") (some 100) (some 7)
      = ({ New Nat with
            jobs := (New Nat).jobs ++ [⟨"both", some 3, 7, periodic.Next 3 0, false⟩] }, none) ∧
    ∀ cronExpr runAt task, (Register periodic (New Nat) 0 "both" cronExpr runAt task).2 = none →
      cronExpr ≠ none ∨ runAt ≠ none :=
  register_both periodic (New Nat) 0 "both" "@+++" 3 100 7 (by decide) rfl

/-- C8: for a name not in the registry and a non-nil task, `Register` with an instant only, or
with a parseable expression only, returns no error and yields the old scheduler with one job
appended: the given name and task, `running = false`, and `nextRun` the instant (no rule
stored) or `Next` of the parsed rule at the current time (rule stored). Looking up the name
gives the new job and looking up any other name gives what it gave before. -/
theorem register_success {E : Type} (ck : Cronkit E) (s : Scheduler E) (now : Time)
    (name : String) (task : Task) (t : Time) (c : String) (e : E)
    (hfresh : lookup name s.jobs = none) (hparse : ck.Parse c = .ok e) :
    (Register ck s now name none (some t) (some task)
        = ({ s with jobs := s.jobs ++ [⟨name, none, task, t, false⟩] }, none) ∧
      ∀ m, lookup m (Register ck s now name none (some t) (some task)).1.jobs
        = if m = name then some ⟨name, none, task, t, false⟩ else lookup m s.jobs) ∧
    (Register ck s now name (some c) none (some task)
        = ({ s with jobs := s.jobs ++ [⟨name, some e, task, ck.Next e now, false⟩] }, none) ∧
      ∀ m, lookup m (Register ck s now name (some c) none (some task)).1.jobs
        = if m = name then some ⟨name, some e, task, ck.Next e now, false⟩
          else lookup m s.jobs) := by
  have h1 : Register ck s now name none (some t) (some task)
      = ({ s with jobs := s.jobs ++ [⟨name, none, task, t, false⟩] }, none) := by
    simp [Register, hfresh]
  have h2 : Register ck s now name (some c) none (some task)
      = ({ s with jobs := s.jobs ++ [⟨name, some e, task, ck.Next e now, false⟩] }, none) := by
    simp [Register, hfresh, hparse]
  refine ⟨⟨h1, fun m => ?_⟩, ⟨h2, fun m => ?_⟩⟩
  · rw [h1]
    exact lookup_append_single m name s.jobs _ rfl hfresh
  · rw [h2]
    exact lookup_append_single m name s.jobs _ rfl hfresh

theorem register_success_witness :
    (Register periodic (New Nat) 4 "once" none (some 9) (some 7)
        = ({ New Nat with jobs := (New Nat).jobs ++ [⟨"once", none, 7, 9, false⟩] }, none) ∧
      ∀ m, lookup m (Register periodic (New Nat) 4 "once" none (some 9) (some 7)).1.jobs
        = if m = "once" then some ⟨"once", none, 7, 9, false⟩ else lookup m (New Nat).jobs) ∧
    (Register periodic (New Nat) 4 "once" (some "@+++") none (some 7)
        = ({ New Nat with
              jobs := (New Nat).jobs ++ [⟨"once", some 3, 7, periodic.Next 3 4, false⟩] },
            none) ∧
      ∀ m, lookup m (Register periodic (New Nat) 4 "once" (some "@+++") none (some 7)).1.jobs
        = if m = "once" then some ⟨"once", some 3, 7, periodic.Next 3 4, false⟩
          else lookup m (New Nat).jobs) :=
  register_success periodic (New Nat) 4 "once" 7 9 "@+++" 3 (by decide) rfl

/-! ## The poll tick -/

theorem scanJob_eq {E : Type} (now : Time) (j : Job E) :
    scanJob now j
      = ({ j with running := j.running || decide (Due now j) }, decide (Due now j)) := by
  obtain ⟨nm, pe, tk, nr, rn⟩ := j
  cases rn with
  | true => simp [scanJob, Due]
  | false =>
    by_cases hz : nr = 0
    · simp [scanJob, Due, IsZero, Before, hz]
    · by_cases hb : now < nr
      · have h1 : ¬ nr ≤ now := Int.not_le.mpr hb
        simp [scanJob, Due, IsZero, Before, hz, hb, h1]
      · have h1 : nr ≤ now := Int.not_lt.mp hb
        simp [scanJob, Due, IsZero, Before, hz, hb, h1]

theorem scanJob_snd {E : Type} (now : Time) (j : Job E) :
    (scanJob now j).2 = decide (Due now j) := by
  rw [scanJob_eq]

theorem scanJob_fst {E : Type} (now : Time) (j : Job E) :
    (scanJob now j).1 = { j with running := j.running || decide (Due now j) } := by
  rw [scanJob_eq]

theorem scan_fst {E : Type} (now : Time) (jobs : List (Job E)) :
    (scan now jobs).1
      = jobs.map (fun j => { j with running := j.running || decide (Due now j) }) := by
  induction jobs with
  | nil => rfl
  | cons j js ih => simp [scan, ih, scanJob_fst]

theorem scan_snd {E : Type} (now : Time) (jobs : List (Job E)) :
    (scan now jobs).2 = (jobs.filter (fun j => decide (Due now j))).map (fun j => j.name) := by
  induction jobs with
  | nil => rfl
  | cons j js ih =>
    by_cases h : Due now j
    · simp [scan, ih, scanJob_snd, h, List.filter_cons]
    · simp [scan, ih, scanJob_snd, h, List.filter_cons]

/-- C9: one locked scan at time `now` launches one `run` goroutine, and adds one to the
WaitGroup, for each job that before the scan has `running = false`, a non-zero `nextRun` and
`nextRun ≤ now`, and for no other job; it sets `running` of exactly those jobs and changes no
other field of any job, and adds or removes no job. A job whose `nextRun` is later than `now`
is therefore not launched. -/
theorem tick_dispatches_due {E : Type} (ck : Cronkit E) (w : World E) (i : Nat) (now : Time)
    (hi : w.loops[i]? = some (.atLock now)) (hp : w.panicked = false) :
    ∃ w', step ck (.loopScan i) w = some w' ∧
      w'.s.jobs
        = w.s.jobs.map (fun j => { j with running := j.running || decide (Due now j) }) ∧
      w'.runs = w.runs ++
        (w.s.jobs.filter (fun j => decide (Due now j))).map (fun j => ⟨j.name, .task⟩) ∧
      w'.s.wg = w.s.wg + (w.s.jobs.filter (fun j => decide (Due now j))).length ∧
      w'.s.stopCh = w.s.stopCh ∧
      ∀ j ∈ w.s.jobs, now < j.nextRun → j ∉ w.s.jobs.filter (fun j => decide (Due now j)) := by
  refine ⟨{ w with
      s := { w.s with jobs := (scan now w.s.jobs).1,
                      wg := w.s.wg + (scan now w.s.jobs).2.length }
      runs := w.runs ++ (scan now w.s.jobs).2.map (fun n => ⟨n, .task⟩)
      started := w.started ++ (scan now w.s.jobs).2
      loops := w.loops.set i .atSelect }, by simp [step, hp, hi], ?_, ?_, ?_, rfl, ?_⟩
  · exact scan_fst now w.s.jobs
  · simp [scan_snd]
  · simp [scan_snd]
  · intro j _ hlt hmem
    have hd : Due now j := by simpa using (List.mem_filter.1 hmem).2
    exact absurd hd.2.2 (Int.not_le.mpr hlt)

theorem tick_dispatches_due_witness :
    ∃ w', step periodic (.loopScan 0)
        { s := { jobs := [⟨"a", none, 7, 1, false⟩, ⟨"b", some 3, 8, 9, false⟩,
                          ⟨"c", none, 9, 0, false⟩, ⟨"d", some 2, 6, 4, true⟩],
                 stopCh := false, wg := 1 },
          runs := [⟨"d", .task⟩], loops := [.atLock 5], stops := [], log := [],
          started := ["d"], panicked := false } = some w' ∧
      w'.s.jobs = [⟨"a", none, 7, 1, true⟩, ⟨"b", some 3, 8, 9, false⟩,
                   ⟨"c", none, 9, 0, false⟩, ⟨"d", some 2, 6, 4, true⟩] ∧
      w'.runs = [⟨"d", .task⟩, ⟨"a", .task⟩] ∧ w'.s.wg = 2 := by
  obtain ⟨w', h, hj, hr, hw, _⟩ := tick_dispatches_due periodic
    { s := { jobs := [⟨"a", none, 7, 1, false⟩, ⟨"b", some 3, 8, 9, false⟩,
                      ⟨"c", none, 9, 0, false⟩, ⟨"d", some 2, 6, 4, true⟩],
             stopCh := false, wg := 1 },
      runs := [⟨"d", .task⟩], loops := [.atLock 5], stops := [], log := [],
      started := ["d"], panicked := false } 0 5 rfl rfl
  exact ⟨w', h, by rw [hj]; decide, by rw [hr]; decide, by rw [hw]; decide⟩

/-! ## Completion of an execution -/

/-- C10: from the moment its task returns at time `t`, the steps of `run` up to the clearing of
`running` are enabled and leave the job with `running = false` and `nextRun` equal to `Next` of
its rule at `t`, or to the zero instant when it has no rule; no other field of the job, no
other job and nothing else in the scheduler is changed, and the scheduler obtained is the same
whether the task returned an error or not. -/
theorem run_completion {E : Type} (ck : Cronkit E) (w : World E) (k : Nat) (n : String)
    (err : Option String) (t : Time)
    (hk : w.runs[k]? = some ⟨n, .task⟩) (hp : w.panicked = false) :
    ∃ w', exec ck [.taskReturn k err, .setNextRun k t, .clearRunning k] w = some w' ∧
      w'.s = { w.s with jobs := w.s.jobs.map (fun j =>
        if j.name = n then
          { j with
            running := false
            nextRun := match j.parsedCronExpr with
              | some e => ck.Next e t
              | none => 0 }
        else j) } ∧
      w'.runs = w.runs.set k ⟨n, .deferDone⟩ ∧
      ∀ err', (exec ck [.taskReturn k err', .setNextRun k t, .clearRunning k] w).map (·.s)
        = some w'.s := by
  have hlt : k < w.runs.length := by
    rcases Nat.lt_or_ge k w.runs.length with h | h
    · exact h
    · rw [List.getElem?_eq_none h] at hk; cases hk
  have key : ∀ e : Option String,
      exec ck [.taskReturn k e, .setNextRun k t, .clearRunning k] w
        = some { w with
            s := { w.s with jobs := modify n runClear (modify n (runNextRun ck t) w.s.jobs) }
            runs := w.runs.set k ⟨n, .deferDone⟩
            log := match e with
              | some e => w.log ++ [(n, e)]
              | none => w.log } := by
    intro e
    simp [exec, step, hp, hk, hlt, List.getElem?_set]
  have hjobs : modify n runClear (modify n (runNextRun ck t) w.s.jobs)
      = w.s.jobs.map (fun j =>
        if j.name = n then
          { j with
            running := false
            nextRun := match j.parsedCronExpr with
              | some e => ck.Next e t
              | none => 0 }
        else j) := by
    simp only [modify, List.map_map]
    apply List.map_congr_left
    intro j _
    by_cases hn : j.name = n
    · cases hc : j.parsedCronExpr <;> simp [hn, runClear, runNextRun, hc]
    · simp [hn]
  refine ⟨_, key err, ?_, rfl, ?_⟩
  · simp [hjobs]
  · intro err'
    rw [key err']
    rfl

theorem run_completion_witness :
    ∃ w', exec periodic [.taskReturn 0 (some "boom"), .setNextRun 0 6, .clearRunning 0]
        { s := { jobs := [⟨"b", some 3, 7, 3, true⟩, ⟨"a", none, 8, 1, false⟩],
                 stopCh := false, wg := 1 },
          runs := [⟨"b", .task⟩], loops := [.atSelect], stops := [], log := [],
          started := ["b"], panicked := false } = some w' ∧
      w'.s = { jobs := [⟨"b", some 3, 7, 9, false⟩, ⟨"a", none, 8, 1, false⟩],
               stopCh := false, wg := 1 } ∧
      w'.runs = [⟨"b", .deferDone⟩] := by
  obtain ⟨w', h, hs, hr, _⟩ := run_completion periodic
    { s := { jobs := [⟨"b", some 3, 7, 3, true⟩, ⟨"a", none, 8, 1, false⟩],
             stopCh := false, wg := 1 },
      runs := [⟨"b", .task⟩], loops := [.atSelect], stops := [], log := [],
      started := ["b"], panicked := false } 0 "b" (some "boom") 6 rfl rfl
  exact ⟨w', h, by rw [hs]; decide, by rw [hr]; decide⟩

/-! ## Stop -/

/-- C4: `Stop` never fails; on a scheduler whose `stopCh` is already closed it returns at once
without closing the channel again and leaves the scheduler as it is, and after a first `Stop`
(which only closes `stopCh`, leaving registry and WaitGroup alone) a second `Stop` changes
nothing. In the interleaving semantics the `select` of a `Stop` that finds the channel closed
moves that caller to `returned` and changes nothing else. -/
theorem stop_idempotent {E : Type} (ck : Cronkit E) (w : World E) (i : Nat)
    (hs : w.s.stopCh = true) (hi : w.stops[i]? = some .atSelect) (hp : w.panicked = false) :
    Stop w.s = some (w.s, .returned) ∧
    step ck (.stopSelect i) w = some { w with stops := w.stops.set i .returned } ∧
    ∀ s : Scheduler E, ∃ pc, Stop s = some ({ s with stopCh := true }, pc) ∧
      (Stop s).bind (fun r => Stop r.1) = some ({ s with stopCh := true }, .returned) := by
  refine ⟨by simp [Stop, stopSelect, hs], by simp [step, hp, hi, stopSelect, hs], ?_⟩
  intro s
  cases h : s.stopCh with
  | true =>
    refine ⟨.returned, ?_, ?_⟩
    · cases s; simp_all [Stop, stopSelect]
    · cases s; simp_all [Stop, stopSelect]
  | false =>
    refine ⟨.atWait, ?_, ?_⟩
    · simp [Stop, stopSelect, closeStopCh, h]
    · simp [Stop, stopSelect, closeStopCh, h]

theorem stop_idempotent_witness :
    Stop (⟨[⟨"a", none, 7, 1, false⟩], true, 0⟩ : Scheduler Nat)
      = some (⟨[⟨"a", none, 7, 1, false⟩], true, 0⟩, .returned) ∧
    step periodic (.stopSelect 1)
        { s := ⟨[⟨"a", none, 7, 1, false⟩], true, 0⟩, runs := [], loops := [.atSelect],
          stops := [.returned, .atSelect], log := [], started := [], panicked := false }
      = some { s := ⟨[⟨"a", none, 7, 1, false⟩], true, 0⟩, runs := [], loops := [.atSelect],
               stops := [.returned, .returned], log := [], started := [],
               panicked := false } := by
  obtain ⟨h1, h2, _⟩ := stop_idempotent periodic
    { s := ⟨[⟨"a", none, 7, 1, false⟩], true, 0⟩, runs := [], loops := [.atSelect],
      stops := [.returned, .atSelect], log := [], started := [], panicked := false } 1
    rfl rfl rfl
  exact ⟨h1, h2⟩

/-! ## Lists of goroutines -/

theorem countP_set_getElem? {α : Type} (p : α → Bool) (l : List α) (k : Nat) (x y : α)
    (h : l[k]? = some x) :
    (l.set k y).countP p + (if p x then 1 else 0) = l.countP p + (if p y then 1 else 0) := by
  induction l generalizing k with
  | nil => simp at h
  | cons a l ih =>
    cases k with
    | zero =>
      simp at h
      subst h
      simp [List.countP_cons]
      omega
    | succ k =>
      simp at h
      have := ih k h
      simp [List.countP_cons]
      omega

theorem countP_eraseIdx_getElem? {α : Type} (p : α → Bool) (l : List α) (k : Nat) (x : α)
    (h : l[k]? = some x) :
    (l.eraseIdx k).countP p + (if p x then 1 else 0) = l.countP p := by
  induction l generalizing k with
  | nil => simp at h
  | cons a l ih =>
    cases k with
    | zero =>
      simp at h
      subst h
      simp [List.countP_cons]
    | succ k =>
      simp at h
      have := ih k h
      simp [List.countP_cons]
      omega

theorem lt_length_of_getElem? {α : Type} (l : List α) (k : Nat) (x : α) (h : l[k]? = some x) :
    k < l.length := by
  rcases Nat.lt_or_ge k l.length with h1 | h1
  · exact h1
  · rw [List.getElem?_eq_none h1] at h; cases h

/-! ## The registry under the steps -/

theorem names_modify {E : Type} (m : String) (f : Job E → Job E) (jobs : List (Job E))
    (hf : ∀ j, (f j).name = j.name) : names (modify m f jobs) = names jobs := by
  simp only [names, modify, List.map_map]
  apply List.map_congr_left
  intro j _
  by_cases h : j.name = m <;> simp [h, hf]

theorem runNextRun_name {E : Type} (ck : Cronkit E) (t : Time) (j : Job E) :
    (runNextRun ck t j).name = j.name := by
  unfold runNextRun; cases j.parsedCronExpr <;> rfl

theorem runNextRun_running {E : Type} (ck : Cronkit E) (t : Time) (j : Job E) :
    (runNextRun ck t j).running = j.running := by
  unfold runNextRun; cases j.parsedCronExpr <;> rfl

theorem names_scan {E : Type} (now : Time) (jobs : List (Job E)) :
    names (scan now jobs).1 = names jobs := by
  simp [names, scan_fst]

theorem mem_names {E : Type} (n : String) (jobs : List (Job E)) :
    n ∈ names jobs ↔ ∃ j ∈ jobs, j.name = n := by
  simp [names]

theorem lookup_none_not_mem {E : Type} (n : String) (jobs : List (Job E))
    (h : lookup n jobs = none) : n ∉ names jobs := by
  rw [mem_names]
  rintro ⟨j, hj, hn⟩
  exact (lookup_eq_none_iff n jobs).1 h j hj hn

theorem isRunning_iff {E : Type} (n : String) (jobs : List (Job E)) :
    isRunning n jobs = true ↔ ∃ j ∈ jobs, j.name = n ∧ j.running = true := by
  simp [isRunning]

theorem isRunning_append_idle {E : Type} (n : String) (jobs : List (Job E)) (j : Job E)
    (hj : j.running = false) : isRunning n (jobs ++ [j]) = isRunning n jobs := by
  simp [isRunning, hj]

theorem isRunning_modify_next {E : Type} (ck : Cronkit E) (t : Time) (n m : String)
    (jobs : List (Job E)) :
    isRunning n (modify m (runNextRun ck t) jobs) = isRunning n jobs := by
  rw [Bool.eq_iff_iff]
  simp only [isRunning_iff, modify, List.mem_map]
  constructor
  · rintro ⟨j', ⟨j, hj, rfl⟩, hn, hr⟩
    by_cases hm : j.name = m
    · rw [if_pos hm] at hn hr
      exact ⟨j, hj, by rw [← hn, runNextRun_name], by rw [← hr, runNextRun_running]⟩
    · rw [if_neg hm] at hn hr
      exact ⟨j, hj, hn, hr⟩
  · rintro ⟨j, hj, hn, hr⟩
    refine ⟨_, ⟨j, hj, rfl⟩, ?_, ?_⟩
    · by_cases hm : j.name = m
      · rw [if_pos hm, runNextRun_name, hn]
      · rw [if_neg hm, hn]
    · by_cases hm : j.name = m
      · rw [if_pos hm, runNextRun_running, hr]
      · rw [if_neg hm, hr]

theorem isRunning_modify_clear_self {E : Type} (m : String) (jobs : List (Job E)) :
    isRunning m (modify m runClear jobs) = false := by
  rw [Bool.eq_false_iff]
  intro h
  obtain ⟨j', hj', hn, hr⟩ := (isRunning_iff _ _).1 h
  simp only [modify, List.mem_map] at hj'
  obtain ⟨j, _, rfl⟩ := hj'
  by_cases hm : j.name = m
  · rw [if_pos hm] at hr
    simp [runClear] at hr
  · rw [if_neg hm] at hn
    exact hm hn

theorem isRunning_modify_clear_other {E : Type} (n m : String) (jobs : List (Job E))
    (hne : n ≠ m) : isRunning n (modify m runClear jobs) = isRunning n jobs := by
  rw [Bool.eq_iff_iff]
  simp only [isRunning_iff, modify, List.mem_map]
  constructor
  · rintro ⟨j', ⟨j, hj, rfl⟩, hn, hr⟩
    by_cases hm : j.name = m
    · rw [if_pos hm] at hn
      exact absurd (hn.symm.trans hm) hne
    · rw [if_neg hm] at hn hr
      exact ⟨j, hj, hn, hr⟩
  · rintro ⟨j, hj, hn, hr⟩
    have hm : ¬ j.name = m := fun e => hne (hn.symm.trans e)
    exact ⟨_, ⟨j, hj, rfl⟩, by rw [if_neg hm, hn], by rw [if_neg hm, hr]⟩

theorem mem_launched {E : Type} (now : Time) (n : String) (jobs : List (Job E)) :
    n ∈ (scan now jobs).2 ↔ ∃ j ∈ jobs, j.name = n ∧ Due now j := by
  simp only [scan_snd, List.mem_map, List.mem_filter, decide_eq_true_eq]
  constructor
  · rintro ⟨j, ⟨hj, hd⟩, hn⟩; exact ⟨j, hj, hn, hd⟩
  · rintro ⟨j, hj, hn, hd⟩; exact ⟨j, ⟨hj, hd⟩, hn⟩

theorem isRunning_scan {E : Type} (now : Time) (n : String) (jobs : List (Job E)) :
    isRunning n (scan now jobs).1 = (isRunning n jobs || decide (n ∈ (scan now jobs).2)) := by
  rw [Bool.eq_iff_iff]
  simp only [Bool.or_eq_true, decide_eq_true_eq, mem_launched, isRunning_iff, scan_fst,
    List.mem_map]
  constructor
  · rintro ⟨j', ⟨j, hj, rfl⟩, hn, hr⟩
    simp only [Bool.or_eq_true, decide_eq_true_eq] at hr hn
    rcases hr with hr | hr
    · exact Or.inl ⟨j, hj, hn, hr⟩
    · exact Or.inr ⟨j, hj, hn, hr⟩
  · rintro (⟨j, hj, hn, hr⟩ | ⟨j, hj, hn, hd⟩)
    · exact ⟨_, ⟨j, hj, rfl⟩, hn, by simp [hr]⟩
    · exact ⟨_, ⟨j, hj, rfl⟩, hn, by simp [hd]⟩

theorem launched_nodup {E : Type} (now : Time) (jobs : List (Job E))
    (hnd : (names jobs).Nodup) : (scan now jobs).2.Nodup := by
  rw [scan_snd]
  exact hnd.sublist ((List.filter_sublist jobs).map _)

theorem not_launched_of_running {E : Type} (now : Time) (n : String) (jobs : List (Job E))
    (hnd : (names jobs).Nodup) (hr : isRunning n jobs = true) : n ∉ (scan now jobs).2 := by
  rw [mem_launched]
  rintro ⟨j', hj', hn', hd⟩
  obtain ⟨j, hj, hn, hrun⟩ := (isRunning_iff n jobs).1 hr
  have : j = j' := List.inj_on_of_nodup_map hnd hj hj' (hn.trans hn'.symm)
  subst this
  rw [hd.1] at hrun
  cases hrun

theorem countP_launched (n : String) (l : List String) :
    (l.map (fun m => (⟨m, .task⟩ : Run))).countP (fun x => x.name == n && x.pc != .deferDone)
      = l.count n := by
  induction l with
  | nil => rfl
  | cons a l ih =>
    simp only [List.map_cons, List.countP_cons, ih, List.count_cons]
    by_cases h : a = n <;> simp [h]

/-! ## The invariant -/

theorem register_cases {E : Type} (ck : Cronkit E) (s : Scheduler E) (now : Time) (name : String)
    (cronExpr : Option String) (runAt : Option Time) (task : Option Task) :
    (Register ck s now name cronExpr runAt task).1 = s ∨
    ∃ j : Job E, j.name = name ∧ j.running = false ∧ lookup name s.jobs = none ∧
      (Register ck s now name cronExpr runAt task).1 = { s with jobs := s.jobs ++ [j] } := by
  cases hl : lookup name s.jobs with
  | some j => left; simp [Register, hl]
  | none =>
    cases task with
    | none => left; simp [Register, hl]
    | some t =>
      cases cronExpr with
      | some c =>
        cases hp : ck.Parse c with
        | error err => left; simp [Register, hl, hp]
        | ok e =>
          right
          exact ⟨⟨name, some e, t, ck.Next e now, false⟩, rfl, rfl, rfl,
            by simp [Register, hl, hp]⟩
      | none =>
        cases runAt with
        | none => left; simp [Register, hl]
        | some r =>
          right
          exact ⟨⟨name, none, t, r, false⟩, rfl, rfl, rfl, by simp [Register, hl]⟩

theorem inFlight_le_of_mem {E : Type} (w : World E) (x : Run) (k : Nat)
    (hk : w.runs[k]? = some x) (hpc : x.pc ≠ .deferDone) : 1 ≤ inFlight x.name w := by
  unfold inFlight
  apply List.countP_pos_iff.2
  exact ⟨x, List.getElem?_mem hk, by simp [hpc]⟩

theorem inv_init (E : Type) : Inv (init E) :=
  ⟨by simp [init, New, names], fun n => by simp [inFlight, isRunning, init, New],
    by simp [init], rfl⟩

theorem inv_register {E : Type} (ck : Cronkit E) (w : World E) (now : Time) (name : String)
    (cronExpr : Option String) (runAt : Option Time) (task : Option Task) (h : Inv w) :
    Inv { w with s := (Register ck w.s now name cronExpr runAt task).1 } := by
  rcases register_cases ck w.s now name cronExpr runAt task with hr | ⟨j, hn, hrun, hl, hr⟩
  · exact ⟨by simp only [hr]; exact h.nodup,
      fun n => by simp only [inFlight, hr]; exact h.flight n,
      by simp only [hr]; exact h.started, by simp only [hr]; exact h.wg⟩
  · refine ⟨?_, fun n => ?_, ?_, ?_⟩
    · simp only [hr, names, List.map_append, List.map_cons, List.map_nil]
      apply List.Nodup.append h.nodup (List.nodup_singleton _)
      simp only [List.disjoint_singleton, hn]
      exact lookup_none_not_mem name w.s.jobs hl
    · simp only [inFlight, hr, isRunning_append_idle n w.s.jobs j hrun]
      exact h.flight n
    · intro n hn'
      simp only [hr, names, List.map_append, List.mem_append]
      exact Or.inl (h.started n hn')
    · simp only [hr]; exact h.wg

theorem inv_step {E : Type} (ck : Cronkit E) (l : Label) (w w' : World E) (h : Inv w)
    (hs : step ck l w = some w') : Inv w' := by
  unfold step at hs
  split at hs
  · cases hs
  · cases l with
    | register now name cronExpr runAt task =>
      simp only [Option.some.injEq] at hs
      subst hs
      exact inv_register ck w now name cronExpr runAt task h
    | start =>
      simp only [Option.some.injEq] at hs; subst hs
      exact ⟨h.nodup, h.flight, h.started, h.wg⟩
    | loopSelect i now =>
      simp only at hs
      split at hs
      · simp only [Option.some.injEq] at hs; subst hs
        exact ⟨h.nodup, h.flight, h.started, h.wg⟩
      · cases hs
    | loopScan i =>
      simp only at hs
      split at hs
      · rename_i now _
        simp only [Option.some.injEq] at hs; subst hs
        refine ⟨?_, fun n => ?_, ?_, ?_⟩
        · simp only [names_scan]; exact h.nodup
        · simp only [inFlight, List.countP_append, countP_launched, isRunning_scan]
          have hf := h.flight n
          simp only [inFlight] at hf
          rw [hf]
          cases hr : isRunning n w.s.jobs with
          | true =>
            have := not_launched_of_running now n w.s.jobs h.nodup hr
            simp [List.count_eq_zero_of_not_mem this]
          | false =>
            by_cases hm : n ∈ (scan now w.s.jobs).2
            · simp [hm, List.count_eq_one_of_mem (launched_nodup now w.s.jobs h.nodup) hm]
            · simp [hm, List.count_eq_zero_of_not_mem hm]
        · intro n hn
          simp only [names_scan]
          rcases List.mem_append.1 hn with hn | hn
          · exact h.started n hn
          · obtain ⟨j, hj, hjn, _⟩ := (mem_launched now n w.s.jobs).1 hn
            exact (mem_names n w.s.jobs).2 ⟨j, hj, hjn⟩
        · simp only [List.length_append, List.length_map, h.wg]
      · cases hs
    | taskReturn k err =>
      simp only at hs
      split at hs
      · rename_i n hk
        simp only [Option.some.injEq] at hs; subst hs
        refine ⟨h.nodup, fun m => ?_, h.started, ?_⟩
        · have hc := countP_set_getElem? (fun x : Run => x.name == m && x.pc != .deferDone)
            w.runs k ⟨n, .task⟩ ⟨n, .afterTask⟩ hk
          have hf := h.flight m
          simp only [inFlight] at hf ⊢
          rw [← hf]
          simpa using hc
        · simp only [List.length_set]; exact h.wg
      · cases hs
    | setNextRun k now =>
      simp only at hs
      split at hs
      · rename_i n hk
        simp only [Option.some.injEq] at hs; subst hs
        refine ⟨?_, fun m => ?_, ?_, ?_⟩
        · simp only [names_modify n _ w.s.jobs (runNextRun_name ck now)]; exact h.nodup
        · have hc := countP_set_getElem? (fun x : Run => x.name == m && x.pc != .deferDone)
            w.runs k ⟨n, .afterTask⟩ ⟨n, .deferClear⟩ hk
          have hf := h.flight m
          simp only [inFlight, isRunning_modify_next] at hf ⊢
          rw [← hf]
          simpa using hc
        · simp only [names_modify n _ w.s.jobs (runNextRun_name ck now)]; exact h.started
        · simp only [List.length_set]; exact h.wg
      · cases hs
    | clearRunning k =>
      simp only at hs
      split at hs
      · rename_i n hk
        simp only [Option.some.injEq] at hs; subst hs
        have hname : ∀ j : Job E, (runClear j).name = j.name := fun _ => rfl
        refine ⟨?_, fun m => ?_, ?_, ?_⟩
        · simp only [names_modify n _ w.s.jobs hname]; exact h.nodup
        · have hc := countP_set_getElem? (fun x : Run => x.name == m && x.pc != .deferDone)
            w.runs k ⟨n, .deferClear⟩ ⟨n, .deferDone⟩ hk
          have hf := h.flight m
          simp only [inFlight] at hf ⊢
          by_cases hmn : m = n
          · subst hmn
            rw [isRunning_modify_clear_self]
            have h1 := inFlight_le_of_mem w ⟨m, .deferClear⟩ k hk (by simp)
            simp only [inFlight] at h1
            have h2 : List.countP (fun x : Run => x.name == m && x.pc != .deferDone) w.runs
                ≤ 1 := by
              rw [hf]; split <;> omega
            simp at hc
            simp only [Bool.false_eq_true, if_false]
            omega
          · rw [isRunning_modify_clear_other m n w.s.jobs hmn, ← hf]
            have : ¬ n = m := fun e => hmn e.symm
            simpa [this] using hc
        · simp only [names_modify n _ w.s.jobs hname]; exact h.started
        · simp only [List.length_set]; exact h.wg
      · cases hs
    | wgDone k =>
      simp only at hs
      split at hs
      · rename_i n hk
        simp only [Option.some.injEq] at hs; subst hs
        refine ⟨h.nodup, fun m => ?_, h.started, ?_⟩
        · have hc := countP_eraseIdx_getElem? (fun x : Run => x.name == m && x.pc != .deferDone)
            w.runs k ⟨n, .deferDone⟩ hk
          have hf := h.flight m
          simp only [inFlight] at hf ⊢
          rw [← hf]
          simpa using hc
        · have hlt := lt_length_of_getElem? w.runs k _ hk
          simp only [List.length_eraseIdx, if_pos hlt, h.wg]
      · cases hs
    | stopCall =>
      simp only [Option.some.injEq] at hs; subst hs
      exact ⟨h.nodup, h.flight, h.started, h.wg⟩
    | stopSelect i =>
      simp only at hs
      split at hs
      · simp only [Option.some.injEq] at hs; subst hs
        exact ⟨h.nodup, h.flight, h.started, h.wg⟩
      · cases hs
    | stopClose i =>
      simp only at hs
      split at hs
      · split at hs
        · rename_i s' hc
          simp only [Option.some.injEq] at hs; subst hs
          have hs' : s' = { w.s with stopCh := true } := by
            unfold closeStopCh at hc
            split at hc
            · cases hc
            · simpa using hc.symm
          subst hs'
          exact ⟨h.nodup, h.flight, h.started, h.wg⟩
        · simp only [Option.some.injEq] at hs; subst hs
          exact ⟨h.nodup, h.flight, h.started, h.wg⟩
      · cases hs
    | stopWait i =>
      simp only at hs
      split at hs
      · split at hs
        · simp only [Option.some.injEq] at hs; subst hs
          exact ⟨h.nodup, h.flight, h.started, h.wg⟩
        · cases hs
      · cases hs

theorem inv_steps {E : Type} (ck : Cronkit E) (w w' : World E) (h : Inv w)
    (hs : Steps ck w w') : Inv w' := by
  induction hs with
  | refl => exact h
  | tail l _ hstep ih => exact inv_step ck l _ _ ih hstep

theorem inv_reachable {E : Type} (ck : Cronkit E) (w : World E) (h : Reachable ck w) :
    Inv w :=
  inv_steps ck _ _ (inv_init E) h

/-! ## One-shot jobs -/

theorem oneShot_frame {E : Type} (n : String) (r : Time) (w w' : World E)
    (ho : OneShot n r w) (hj : w'.s.jobs = w.s.jobs) (hst : w'.started = w.started)
    (hr : ∀ x ∈ w'.runs, x.pc = .deferClear → x ∈ w.runs) : OneShot n r w' := by
  refine ⟨by rw [hj]; exact ho.registered, by rw [hst]; exact ho.once, ?_⟩
  intro j hjm hn
  rw [hj] at hjm
  rw [hst]
  obtain ⟨h1, h2, h3, h4⟩ := ho.job j hjm hn
  exact ⟨h1, h2, h3, fun x hx hxn hpc => h4 x (hr x hx hpc) hxn hpc⟩

theorem mem_modify {E : Type} (m : String) (f : Job E → Job E) (jobs : List (Job E))
    (j' : Job E) (h : j' ∈ modify m f jobs) :
    ∃ j ∈ jobs, j' = if j.name = m then f j else j := by
  simp only [modify, List.mem_map] at h
  obtain ⟨j, hj, rfl⟩ := h
  exact ⟨j, hj, rfl⟩

theorem oneShot_step {E : Type} (ck : Cronkit E) (l : Label) (n : String) (r : Time)
    (w w' : World E) (h : Inv w) (ho : OneShot n r w) (hs : step ck l w = some w') :
    OneShot n r w' := by
  unfold step at hs
  split at hs
  · cases hs
  · cases l with
    | register now name cronExpr runAt task =>
      simp only [Option.some.injEq] at hs
      subst hs
      rcases register_cases ck w.s now name cronExpr runAt task with hr | ⟨j, hn, hrun, hl, hr⟩
      · exact oneShot_frame n r w _ ho (by simp only [hr]) rfl (fun x hx _ => hx)
      · have hne : name ≠ n := by
          rintro rfl
          exact lookup_none_not_mem name w.s.jobs hl ho.registered
        refine ⟨?_, ho.once, ?_⟩
        · simp only [hr, names, List.map_append, List.mem_append]
          exact Or.inl ho.registered
        · intro j' hj' hn'
          simp only [hr, List.mem_append, List.mem_singleton] at hj'
          rcases hj' with hj' | rfl
          · exact ho.job j' hj' hn'
          · exact absurd (hn.symm.trans hn') hne
    | start =>
      simp only [Option.some.injEq] at hs; subst hs
      exact oneShot_frame n r w _ ho rfl rfl (fun x hx _ => hx)
    | loopSelect i now =>
      simp only at hs
      split at hs
      · simp only [Option.some.injEq] at hs; subst hs
        exact oneShot_frame n r w _ ho rfl rfl (fun x hx _ => hx)
      · cases hs
    | loopScan i =>
      simp only at hs
      split at hs
      · rename_i now _
        simp only [Option.some.injEq] at hs; subst hs
        have hnd := launched_nodup now w.s.jobs h.nodup
        have hcl : (scan now w.s.jobs).2.count n ≤ 1 := List.nodup_iff_count_le_one.1 hnd n
        have hnot : w.started.count n ≠ 0 → n ∉ (scan now w.s.jobs).2 := by
          intro hc hm
          obtain ⟨j, hj, hjn, hd⟩ := (mem_launched now n w.s.jobs).1 hm
          obtain ⟨_, _, h3, _⟩ := ho.job j hj hjn
          rcases h3 hc with h3 | h3
          · rw [hd.1] at h3; cases h3
          · exact hd.2.1 h3
        refine ⟨by simp only [names_scan]; exact ho.registered, ?_, ?_⟩
        · simp only [List.count_append]
          by_cases hc : w.started.count n = 0
          · omega
          · have := List.count_eq_zero_of_not_mem (hnot hc)
            have := ho.once
            omega
        · intro j' hj' hn'
          simp only [scan_fst, List.mem_map] at hj'
          obtain ⟨j, hj, rfl⟩ := hj'
          simp only at hn'
          obtain ⟨h1, h2, h3, h4⟩ := ho.job j hj hn'
          simp only [List.count_append]
          refine ⟨h1, ?_, ?_, ?_⟩
          · intro hc
            have hc0 : w.started.count n = 0 := by omega
            have hl0 : (scan now w.s.jobs).2.count n = 0 := by omega
            have hnm : n ∉ (scan now w.s.jobs).2 := List.count_eq_zero.1 hl0
            have hnd' : ¬ Due now j := fun hd =>
              hnm ((mem_launched now n w.s.jobs).2 ⟨j, hj, hn', hd⟩)
            simp [h2 hc0, hnd']
          · intro hc
            by_cases hc0 : w.started.count n = 0
            · have hl1 : (scan now w.s.jobs).2.count n ≠ 0 := by omega
              have hm : n ∈ (scan now w.s.jobs).2 := by
                by_contra hcon
                exact hl1 (List.count_eq_zero_of_not_mem hcon)
              obtain ⟨j2, hj2, hj2n, hd⟩ := (mem_launched now n w.s.jobs).1 hm
              have : j2 = j := List.inj_on_of_nodup_map h.nodup hj2 hj (hj2n.trans hn'.symm)
              subst this
              left
              simp [hd]
            · rcases h3 hc0 with h3 | h3
              · left; simp [h3]
              · right; exact h3
          · intro x hx hxn hpc
            simp only [List.mem_append, List.mem_map] at hx
            rcases hx with hx | ⟨m, _, rfl⟩
            · exact h4 x hx hxn hpc
            · cases hpc
      · cases hs
    | taskReturn k err =>
      simp only at hs
      split at hs
      · rename_i m hk
        simp only [Option.some.injEq] at hs; subst hs
        refine oneShot_frame n r w _ ho rfl rfl (fun x hx hpc => ?_)
        rcases List.mem_or_eq_of_mem_set hx with hx | rfl
        · exact hx
        · cases hpc
      · cases hs
    | setNextRun k now =>
      simp only at hs
      split at hs
      · rename_i m hk
        simp only [Option.some.injEq] at hs; subst hs
        refine ⟨?_, ho.once, ?_⟩
        · simp only [names_modify m _ w.s.jobs (runNextRun_name ck now)]; exact ho.registered
        · intro j' hj' hn'
          obtain ⟨j, hj, rfl⟩ := mem_modify m _ w.s.jobs j' hj'
          by_cases hm : j.name = m
          · rw [if_pos hm] at hn' ⊢
            rw [runNextRun_name] at hn'
            obtain ⟨h1, h2, h3, h4⟩ := ho.job j hj hn'
            have hfl := inFlight_le_of_mem w ⟨m, .afterTask⟩ k hk (by simp)
            have hrun : isRunning m w.s.jobs = true := by
              have hf := h.flight m
              by_contra hcon
              rw [if_neg hcon] at hf
              simp only at hfl
              omega
            obtain ⟨j2, hj2, hj2n, hj2r⟩ := (isRunning_iff m w.s.jobs).1 hrun
            have : j2 = j := List.inj_on_of_nodup_map h.nodup hj2 hj (hj2n.trans hm.symm)
            subst this
            have hc : w.started.count n ≠ 0 := by
              intro hc
              rw [(h2 hc).1] at hj2r
              cases hj2r
            have hz : (runNextRun ck now j2).nextRun = 0 := by
              simp [runNextRun, h1]
            refine ⟨by simp [runNextRun, h1], fun hc0 => absurd hc0 hc, fun _ => Or.inr hz,
              fun _ _ _ _ => hz⟩
          · rw [if_neg hm] at hn' ⊢
            obtain ⟨h1, h2, h3, h4⟩ := ho.job j hj hn'
            refine ⟨h1, h2, h3, fun x hx hxn hpc => ?_⟩
            rcases List.mem_or_eq_of_mem_set hx with hx | rfl
            · exact h4 x hx hxn hpc
            · exact absurd (hn'.trans hxn.symm) hm
      · cases hs
    | clearRunning k =>
      simp only at hs
      split at hs
      · rename_i m hk
        simp only [Option.some.injEq] at hs; subst hs
        have hname : ∀ j : Job E, (runClear j).name = j.name := fun _ => rfl
        refine ⟨?_, ho.once, ?_⟩
        · simp only [names_modify m _ w.s.jobs hname]; exact ho.registered
        · intro j' hj' hn'
          obtain ⟨j, hj, rfl⟩ := mem_modify m _ w.s.jobs j' hj'
          by_cases hm : j.name = m
          · rw [if_pos hm] at hn' ⊢
            have hn2 : j.name = n := hn'
            obtain ⟨h1, h2, h3, h4⟩ := ho.job j hj hn2
            have hz : j.nextRun = 0 :=
              h4 ⟨m, .deferClear⟩ (List.getElem?_mem hk) (hm.symm.trans hn2) rfl
            exact ⟨h1, fun hc => ⟨rfl, (h2 hc).2⟩, fun _ => Or.inr hz, fun _ _ _ _ => hz⟩
          · rw [if_neg hm] at hn' ⊢
            obtain ⟨h1, h2, h3, h4⟩ := ho.job j hj hn'
            refine ⟨h1, h2, h3, fun x hx hxn hpc => ?_⟩
            rcases List.mem_or_eq_of_mem_set hx with hx | rfl
            · exact h4 x hx hxn hpc
            · cases hpc
      · cases hs
    | wgDone k =>
      simp only at hs
      split at hs
      · simp only [Option.some.injEq] at hs; subst hs
        exact oneShot_frame n r w _ ho rfl rfl (fun x hx _ => List.mem_of_mem_eraseIdx hx)
      · cases hs
    | stopCall =>
      simp only [Option.some.injEq] at hs; subst hs
      exact oneShot_frame n r w _ ho rfl rfl (fun x hx _ => hx)
    | stopSelect i =>
      simp only at hs
      split at hs
      · simp only [Option.some.injEq] at hs; subst hs
        exact oneShot_frame n r w _ ho rfl rfl (fun x hx _ => hx)
      · cases hs
    | stopClose i =>
      simp only at hs
      split at hs
      · split at hs
        · rename_i s' hc
          simp only [Option.some.injEq] at hs; subst hs
          have hs' : s' = { w.s with stopCh := true } := by
            unfold closeStopCh at hc
            split at hc
            · cases hc
            · simpa using hc.symm
          subst hs'
          exact oneShot_frame n r w _ ho rfl rfl (fun x hx _ => hx)
        · simp only [Option.some.injEq] at hs; subst hs
          exact oneShot_frame n r w _ ho rfl rfl (fun x hx _ => hx)
      · cases hs
    | stopWait i =>
      simp only at hs
      split at hs
      · split at hs
        · simp only [Option.some.injEq] at hs; subst hs
          exact oneShot_frame n r w _ ho rfl rfl (fun x hx _ => hx)
        · cases hs
      · cases hs

theorem oneShot_steps {E : Type} (ck : Cronkit E) (n : String) (r : Time) (w w' : World E)
    (h : Inv w) (ho : OneShot n r w) (hs : Steps ck w w') : Inv w' ∧ OneShot n r w' := by
  induction hs with
  | refl => exact ⟨h, ho⟩
  | tail l _ hstep ih => exact ⟨inv_step ck l _ _ ih.1 hstep, oneShot_step ck l n r _ _ ih.1 ih.2 hstep⟩

theorem steps_of_exec {E : Type} (ck : Cronkit E) (ls : List Label) (w w' : World E)
    (h : exec ck ls w = some w') : Steps ck w w' := by
  have key : ∀ (ls : List Label) (w0 w1 w2 : World E), Steps ck w0 w1 →
      exec ck ls w1 = some w2 → Steps ck w0 w2 := by
    intro ls
    induction ls with
    | nil =>
      intro w0 w1 w2 h01 h12
      simp only [exec, Option.some.injEq] at h12
      subst h12
      exact h01
    | cons l ls ih =>
      intro w0 w1 w2 h01 h12
      simp only [exec] at h12
      cases hstep : step ck l w1 with
      | none => rw [hstep] at h12; cases h12
      | some wm =>
        rw [hstep] at h12
        exact ih w0 wm w2 (Steps.tail l h01 hstep) h12
  exact key ls w w w' (Steps.refl w) h

/-! ## Executions in flight -/

/-- C1: in every reachable world (any interleaving of registrations, of the steps of any number
of poll loops, of executions and of `Stop` calls) and for every job name, at most one execution
of that job is in flight, and there is one exactly when the job's `running` flag is set; in
particular at most one goroutine is executing the job's task. -/
theorem at_most_one_in_flight {E : Type} (ck : Cronkit E) (w : World E)
    (h : Reachable ck w) (n : String) :
    inFlight n w ≤ 1 ∧
    (inFlight n w = 1 ↔ isRunning n w.s.jobs = true) ∧
    (∀ j ∈ w.s.jobs, j.name = n → (inFlight n w = 1 ↔ j.running = true)) ∧
    w.runs.countP (fun x => x.name == n && x.pc == .task) ≤ 1 := by
  have hI := inv_reachable ck w h
  have hf := hI.flight n
  have hle : inFlight n w ≤ 1 := by rw [hf]; split <;> omega
  have hiff : inFlight n w = 1 ↔ isRunning n w.s.jobs = true := by
    rw [hf]; cases isRunning n w.s.jobs <;> simp
  refine ⟨hle, hiff, ?_, ?_⟩
  · intro j hj hn
    rw [hiff, isRunning_iff]
    constructor
    · rintro ⟨j2, hj2, hj2n, hr⟩
      have : j2 = j := List.inj_on_of_nodup_map hI.nodup hj2 hj (hj2n.trans hn.symm)
      rw [← this]; exact hr
    · intro hr
      exact ⟨j, hj, hn, hr⟩
  · refine Nat.le_trans (List.countP_mono_left ?_) hle
    intro x _ hx
    simp only [Bool.and_eq_true, beq_iff_eq] at hx
    simp [hx.1, hx.2]

theorem at_most_one_in_flight_witness :
    inFlight "a" slowTask ≤ 1 ∧
    (inFlight "a" slowTask = 1 ↔ isRunning "a" slowTask.s.jobs = true) ∧
    (∀ j ∈ slowTask.s.jobs, j.name = "a" → (inFlight "a" slowTask = 1 ↔ j.running = true)) ∧
    slowTask.runs.countP (fun x => x.name == "a" && x.pc == .task) ≤ 1 :=
  at_most_one_in_flight periodic slowTask
    (steps_of_exec periodic
      [.register 0 "a" none (some 1) (some 7), .start, .start, .loopSelect 0 5,
        .loopSelect 1 5, .loopScan 0, .loopScan 1] (init Nat) slowTask (by decide)) "a"

/-! ## One-shot jobs run once -/

theorem lookup_of_mem_names {E : Type} (n : String) (jobs : List (Job E))
    (h : n ∈ names jobs) : ∃ j, lookup n jobs = some j ∧ j ∈ jobs ∧ j.name = n := by
  cases hl : lookup n jobs with
  | none => exact absurd h (lookup_none_not_mem n jobs hl)
  | some j =>
    refine ⟨j, rfl, List.mem_of_find?_eq_some hl, ?_⟩
    have := List.find?_some hl
    simpa using this

/-- C2 as stated fails: a one-shot job registered with the zero instant has `runAt ≤ now` and
is not running at the tick of time 5, and the tick launches nothing. -/
theorem one_shot_zero_counterexample :
    (Register periodic (New Nat) 3 "once" none (some 0) (some 7)).2 = none ∧
    (0 : Time) ≤ 5 ∧
    exec periodic [.register 3 "once" none (some 0) (some 7), .start, .loopSelect 0 5,
        .loopScan 0] (init Nat)
      = some { s := { jobs := [⟨"once", none, 7, 0, false⟩], stopCh := false, wg := 0 },
               runs := [], loops := [.atSelect], stops := [], log := [], started := [],
               panicked := false } := by
  decide

/-- C2 amended: after a one-shot job is registered with instant `runAt` in a reachable world,
in every world reachable from there the job has been launched at most once; a scan at time
`now` launches it exactly when it has never been launched, `runAt` is not the zero instant and
`runAt ≤ now`; until its launch it is idle with `nextRun = runAt`; and once launched and no
longer running it has `nextRun` zero. It keeps no recurrence rule. -/
theorem one_shot_once {E : Type} (ck : Cronkit E) (w0 w : World E) (now0 : Time)
    (name : String) (runAt : Time) (task : Task)
    (h0 : Reachable ck w0)
    (hreg : (Register ck w0.s now0 name none (some runAt) (some task)).2 = none)
    (hs : Steps ck
      { w0 with s := (Register ck w0.s now0 name none (some runAt) (some task)).1 } w) :
    w.started.count name ≤ 1 ∧
    (∃ j, lookup name w.s.jobs = some j ∧ j.parsedCronExpr = none ∧
      (w.started.count name = 0 → j.running = false ∧ j.nextRun = runAt) ∧
      (w.started.count name = 1 → j.running = false → j.nextRun = 0)) ∧
    ∀ now, name ∈ (scan now w.s.jobs).2 ↔
      (w.started.count name = 0 ∧ runAt ≠ 0 ∧ runAt ≤ now) := by
  have hI0 := inv_reachable ck w0 h0
  have hfresh : lookup name w0.s.jobs = none := by
    cases hl : lookup name w0.s.jobs with
    | none => rfl
    | some j => simp [Register, hl] at hreg
  have hnot := lookup_none_not_mem name w0.s.jobs hfresh
  have hr : (Register ck w0.s now0 name none (some runAt) (some task)).1
      = { w0.s with jobs := w0.s.jobs ++ [⟨name, none, task, runAt, false⟩] } := by
    simp [Register, hfresh]
  have hI1 := inv_register ck w0 now0 name none (some runAt) (some task) hI0
  have hc0 : w0.started.count name = 0 :=
    List.count_eq_zero_of_not_mem (fun hm => hnot (hI0.started name hm))
  have hO1 : OneShot name runAt
      { w0 with s := (Register ck w0.s now0 name none (some runAt) (some task)).1 } := by
    refine ⟨?_, ?_, ?_⟩
    · simp [hr, names]
    · simp only [hc0]; omega
    · intro j hj hn
      simp only [hr, List.mem_append, List.mem_singleton] at hj
      rcases hj with hj | rfl
      · exact absurd ((mem_names name w0.s.jobs).2 ⟨j, hj, hn⟩) hnot
      · refine ⟨rfl, fun _ => ⟨rfl, rfl⟩, fun hc => absurd hc0 hc, ?_⟩
        intro x hx hxn hpc
        exfalso
        have hfl : inFlight name w0 = 0 := by
          rw [hI0.flight name]
          have : isRunning name w0.s.jobs = false := by
            rw [Bool.eq_false_iff]
            intro hrun
            obtain ⟨j, hj, hjn, _⟩ := (isRunning_iff name w0.s.jobs).1 hrun
            exact hnot ((mem_names name w0.s.jobs).2 ⟨j, hj, hjn⟩)
          simp [this]
        obtain ⟨k, hk⟩ := List.getElem?_of_mem hx
        have := inFlight_le_of_mem w0 x k hk (by rw [hpc]; simp)
        rw [hxn] at this
        omega
  obtain ⟨_, hO⟩ := oneShot_steps ck name runAt _ w hI1 hO1 hs
  obtain ⟨j, hlj, hjm, hjn⟩ := lookup_of_mem_names name w.s.jobs hO.registered
  obtain ⟨h1, h2, h3, _⟩ := hO.job j hjm hjn
  refine ⟨hO.once, ⟨j, hlj, h1, h2, ?_⟩, ?_⟩
  · intro hc hrun
    rcases h3 (by omega) with h | h
    · rw [hrun] at h; cases h
    · exact h
  · intro now
    rw [mem_launched]
    constructor
    · rintro ⟨j2, hj2, hj2n, hd⟩
      obtain ⟨_, g2, g3, _⟩ := hO.job j2 hj2 hj2n
      by_cases hc : w.started.count name = 0
      · have hnr := (g2 hc).2
        exact ⟨hc, by rw [← hnr]; exact hd.2.1, by rw [← hnr]; exact hd.2.2⟩
      · exfalso
        rcases g3 hc with g | g
        · rw [hd.1] at g; cases g
        · exact hd.2.1 g
    · rintro ⟨hc, hnz, hle⟩
      obtain ⟨hrun, hnr⟩ := h2 hc
      exact ⟨j, hjm, hjn, hrun, by rw [hnr]; exact hnz, by rw [hnr]; exact hle⟩

theorem one_shot_once_witness :
    onceDone.started.count "once" ≤ 1 ∧
    (∃ j, lookup "once" onceDone.s.jobs = some j ∧ j.parsedCronExpr = none ∧
      (onceDone.started.count "once" = 0 → j.running = false ∧ j.nextRun = 1) ∧
      (onceDone.started.count "once" = 1 → j.running = false → j.nextRun = 0)) ∧
    ∀ now, "once" ∈ (scan now onceDone.s.jobs).2 ↔
      (onceDone.started.count "once" = 0 ∧ (1 : Time) ≠ 0 ∧ (1 : Time) ≤ now) :=
  one_shot_once periodic (init Nat) onceDone 0 "once" 1 7 (Steps.refl _) (by decide)
    (steps_of_exec periodic
      [.start, .loopSelect 0 5, .loopScan 0, .taskReturn 0 none, .setNextRun 0 6,
        .clearRunning 0, .wgDone 0, .loopSelect 0 7, .loopScan 0] _ onceDone (by decide))

/-! ## Stop and executions in flight -/

/-- C3 fails on the code. First run: `a` is launched, a first caller of `Stop` closes `stopCh`
and waits, and a second caller finds the channel closed and has returned while the execution of
`a` is in flight. Second run: the poll loop passes its `select`, the only caller of `Stop` then
closes `stopCh` and returns at once because the WaitGroup is at zero, and the loop goes on to
scan and launches `a` after `Stop` has returned. -/
theorem stop_does_not_wait :
    (exec periodic
        [.register 0 "a" none (some 1) (some 7), .start, .loopSelect 0 5, .loopScan 0,
          .stopCall, .stopSelect 0, .stopClose 0, .stopCall, .stopSelect 1] (init Nat)
      = some stopReturnedEarly ∧
      StopPc.returned ∈ stopReturnedEarly.stops ∧ inFlight "a" stopReturnedEarly = 1) ∧
    (exec periodic
        [.register 0 "a" none (some 1) (some 7), .start, .loopSelect 0 5,
          .stopCall, .stopSelect 0, .stopClose 0, .stopWait 0] (init Nat)
      = some { s := { jobs := [⟨"a", none, 7, 1, false⟩], stopCh := true, wg := 0 },
               runs := [], loops := [.atLock 5], stops := [.returned], log := [],
               started := [], panicked := false } ∧
      step periodic (.loopScan 0)
        { s := { jobs := [⟨"a", none, 7, 1, false⟩], stopCh := true, wg := 0 },
          runs := [], loops := [.atLock 5], stops := [.returned], log := [],
          started := [], panicked := false }
      = some launchedAfterStop ∧
      inFlight "a" launchedAfterStop = 1) := by
  decide

end SimpleScheduler
